import Mathlib

/-!
Verification development for the beatnik drum-track library.

The package has two concerns, embedded here separately because the two
source files model a hit differently:
* the binary MIDI encoder (types file): `Hit`, `Track`, `Hit.encode`,
  `Track.encodeHeaderChunk`, `Track.encodeMetaChunk`, `Track.encodeHits`,
  `Track.MarshalBinary`;
* the text-notation parser (text file): `PHit`, `PTrack`, `ParseTrack`
  and its token-level pieces.

Bytes are modelled as natural numbers (values kept below 256 by the
definitions), byte slices as `List ℕ`.  Go map iteration over a hit's
note set has no specified order, so the encoder takes the iteration
order(s) as explicit list parameters.  The Go `float64` tempo
computation is embedded exactly: binary64 arithmetic in the normal range
is round-to-nearest-even at 53 significant bits, implemented on dyadic
rationals (significand/exponent pairs over ℕ and ℤ).
-/

namespace Beatnik

/-! ### Fuel-based floor-log2 (structural, so that `decide` can evaluate it) -/

/-- Fuel-driven floor of `log2`; `fuel ≥ n` makes it exact. -/
def log2F : ℕ → ℕ → ℕ
  | 0, _ => 0
  | fuel + 1, n => if n < 2 then 0 else log2F fuel (n / 2) + 1

/-- Floor of the base-2 logarithm, total and kernel-computable. -/
def nlog2 (n : ℕ) : ℕ :=
  log2F n n

/-! ### Exact binary64 (IEEE double) model on dyadic rationals

The source computes microseconds-per-beat with `float64` arithmetic.
Binary64 arithmetic on positive normal-range values is
exact-result-then-round-to-nearest-even at 53 significant bits.  The
values reached here are positive dyadic rationals, represented as a
significand together with a power-of-two exponent `(m, e)` denoting
`m * 2 ^ e`; overflow, underflow and subnormals cannot occur for the
values reached from bpm ≥ 1. -/

/-- Round `p / q` (with `q > 0`) to the nearest natural number, ties to even. -/
def rnde (p q : ℕ) : ℕ :=
  let d := p / q
  let r := p % q
  if 2 * r < q then d else if q < 2 * r then d + 1 else if d % 2 = 0 then d else d + 1

/-- Round a dyadic value to 53 significant bits, nearest-even (the
binary64 rounding step after an exact operation). -/
def normalize53 (m : ℕ) (e : ℤ) : ℕ × ℤ :=
  let L := nlog2 m
  if L ≤ 52 then (m, e) else (rnde m (2 ^ (L - 52)), e + (L - 52))

/-- Binary64 reciprocal `1 / b` of a positive integer `b` that is
exactly representable (every bpm ≤ 500 is): the correctly rounded
53-bit significand of `1 / b` with its exponent. -/
def dRecip (b : ℕ) : ℕ × ℤ :=
  let L := nlog2 (2 ^ 100 / b)
  (rnde (2 ^ (152 - L)) b, (L : ℤ) - 152)

/-- Binary64 multiplication of a dyadic value by an exactly
representable natural constant: exact product, then rounding. -/
def dMulNat (x : ℕ × ℤ) (c : ℕ) : ℕ × ℤ :=
  normalize53 (x.1 * c) x.2

/-- Truncation of a nonnegative dyadic value toward zero (the Go
float-to-unsigned conversion for in-range values). -/
def dFloor (x : ℕ × ℤ) : ℕ :=
  if 0 ≤ x.2 then x.1 * 2 ^ x.2.toNat else x.1 / 2 ^ (-x.2).toNat

/-! ### Variable-length quantity codec

Modelled from the spec: the codec (`uvarint` and its decoder) is part of
this repository but its defining file is not under src/ (the encoder in
src/ only calls `uvarint`).  Per the spec, encoding emits the 7-bit
groups of the value most-significant first, setting the high bit on
every byte except the last; decoding accumulates 7-bit groups, shifting
left by 7 each step, until a byte with the high bit clear is consumed. -/

/-- Fuel-driven 7-bit group decomposition, most-significant group first.
With `fuel ≥ n` it is the canonical base-128 digit list of `n`. -/
def vlqGroupsAux : ℕ → ℕ → List ℕ
  | 0, n => [n % 128]
  | fuel + 1, n => if n < 128 then [n] else vlqGroupsAux fuel (n / 128) ++ [n % 128]

/-- Base-128 digits of `n`, most-significant first (`[0]` for `n = 0`). -/
def vlqGroups (n : ℕ) : List ℕ :=
  vlqGroupsAux n n

/-- Set the continuation (high) bit on every byte except the last. -/
def markCont : List ℕ → List ℕ
  | [] => []
  | [b] => [b]
  | b :: bs => (b + 128) :: markCont bs

/-- Modelled from the spec: variable-length-quantity encoding of an
unsigned integer (7 value bits per byte, most-significant group first,
continuation bit on all bytes but the last). -/
def uvarint (n : ℕ) : List ℕ :=
  markCont (vlqGroups n)

/-- Modelled from the spec: variable-length-quantity decoding — shift the
accumulator left 7 bits and add each 7-bit group, stopping after the
first byte whose high bit is clear. -/
def vlqDecode : List ℕ → ℕ → ℕ
  | [], acc => acc
  | b :: bs, acc => if b < 128 then acc * 128 + b else vlqDecode bs (acc * 128 + (b - 128))

/-- Decode a variable-length quantity starting from an empty accumulator. -/
def decodeVLQ (bs : List ℕ) : ℕ :=
  vlqDecode bs 0

/-- Modelled from the spec: `bin`, the fixed 4-byte big-endian encoding
used for chunk lengths (its defining file is not under src/; the spec
fixes it as the 4-byte big-endian length field). -/
def bin (n : ℕ) : List ℕ :=
  [n / 2 ^ 24 % 256, n / 2 ^ 16 % 256, n / 2 ^ 8 % 256, n % 256]

/-! ### Encoder-side data model (types file) -/

/-- Predefined velocity pianississimo. -/
def PPP : ℕ := 16

/-- Predefined velocity pianissimo. -/
def PP : ℕ := 32

/-- Predefined velocity piano. -/
def P : ℕ := 48

/-- Predefined velocity mezzo-piano. -/
def MP : ℕ := 64

/-- Predefined velocity mezzo-forte. -/
def MF : ℕ := 80

/-- Predefined velocity forte. -/
def F : ℕ := 96

/-- Predefined velocity fortissimo. -/
def FF : ℕ := 112

/-- Predefined velocity fortississimo. -/
def FFF : ℕ := 127

/-- A drum hit: the set of notes struck together (Go `map[byte]struct{}`,
hence a finite set with no iteration order), its duration in ticks, and
its velocity. -/
structure Hit where
  Notes : Finset ℕ
  T : ℕ
  V : ℕ
deriving DecidableEq

/-- An entire drum track: ordered hits plus tempo. -/
structure Track where
  Hits : List Hit
  BPM : ℕ
deriving DecidableEq

/-- One iteration step of the note-off loop of `Hit.encode`: while the
`first` flag is set the hit's duration is written as the delta-time,
afterwards a zero delta-time is written; every note-off is status `0x89`
with fixed velocity 64. -/
def offStep (t : ℕ) (st : List ℕ × Bool) (n : ℕ) : List ℕ × Bool :=
  ((st.1 ++ (if st.2 then uvarint t else uvarint 0)) ++ [0x89, n, 64], false)

/-- Binary encoding of a hit as midi events.  Go iterates the note map
twice with unspecified order, so the two iteration orders are explicit
parameters: first all note-on events (zero delta, status `0x99`, note,
velocity), then the note-off loop. -/
def Hit.encode (h : Hit) (ord₁ ord₂ : List ℕ) : List ℕ :=
  let buf := ord₁.foldl (fun buf n => buf ++ [0, 0x99, n, h.V]) []
  (ord₂.foldl (offStep h.T) (buf, true)).1

/-- An iteration order is admissible for a hit when it enumerates the
hit's note set exactly once. -/
def isEnum (ord : List ℕ) (s : Finset ℕ) : Prop :=
  ord.Nodup ∧ ord.toFinset = s

/-- Admissible iteration orders for a whole hit list: one pair of orders
per hit (Go ranges over each hit's map twice). -/
def validOrds (hits : List Hit) (ords : List (List ℕ × List ℕ)) : Prop :=
  ords.length = hits.length ∧
    ∀ p ∈ hits.zip ords, isEnum p.2.1 p.1.Notes ∧ isEnum p.2.2 p.1.Notes

/-- Checking an iteration order is decidable. -/
instance (ord : List ℕ) (s : Finset ℕ) : Decidable (isEnum ord s) := by
  unfold isEnum
  exact inferInstance

/-- Checking a whole order list is decidable. -/
instance (hits : List Hit) (ords : List (List ℕ × List ℕ)) : Decidable (validOrds hits ords) := by
  unfold validOrds
  exact inferInstance

/-- Body of the note chunk: the hits' encodings in sequence order
followed by the end-of-track meta event. -/
def encodeHitsBody (hits : List Hit) (ords : List (List ℕ × List ℕ)) : List ℕ :=
  ((hits.zip ords).foldl (fun buf p => buf ++ p.1.encode p.2.1 p.2.2) []) ++ [0, 0xFF, 0x2F, 0]

/-- ASCII bytes of the track chunk tag. -/
def tagMTrk : List ℕ := [0x4D, 0x54, 0x72, 0x6B]

/-- ASCII bytes of the header chunk tag. -/
def tagMThd : List ℕ := [0x4D, 0x54, 0x68, 0x64]

/-- Binary encoding of the drum hits as a single midi track chunk. -/
def Track.encodeHits (t : Track) (ords : List (List ℕ × List ℕ)) : List ℕ :=
  tagMTrk ++ bin (encodeHitsBody t.Hits ords).length ++ encodeHitsBody t.Hits ords

/-- Binary encoding of the midi header chunk: tag, length 6, file format
1, track count 2, 96 ticks per quarter note (each field big-endian). -/
def encodeHeaderChunk : List ℕ :=
  tagMThd ++ bin 6 ++ ([0, 1] ++ [0, 2] ++ [0, 96])

/-- Microseconds per beat as the source computes it: `mpb := 1 / float64(bpm)`
then `uint32(mpb * 60 * 1000000)`, i.e. three binary64 operations each
rounded to nearest-even, then truncation toward zero.  Faithful for
`1 ≤ bpm < 2 ^ 53` (where `float64(bpm)` is exact); `bpm = 0` hits the
division-by-zero precondition. -/
def uspbF (bpm : ℕ) : ℕ :=
  let mpb := dRecip bpm
  let x1 := dMulNat mpb 60
  let x2 := dMulNat x1 1000000
  dFloor x2

/-- Body of the metadata chunk: a zero-delta 4/4 time-signature meta
event, a zero-delta tempo meta event whose 3-byte payload is the low
three bytes of the computed microseconds-per-beat (`bin uspb` with its
first byte dropped), and a zero-delta end-of-track meta event. -/
def metaBody (bpm : ℕ) : List ℕ :=
  ([0, 0xFF, 0x58, 4, 4, 2, 24, 8] ++ ([0, 0xFF, 0x51, 3] ++ (bin (uspbF bpm)).drop 1)) ++
    [0, 0xFF, 0x2F, 0]

/-- Binary encoding of the midi metadata track chunk. -/
def Track.encodeMetaChunk (t : Track) : List ℕ :=
  tagMTrk ++ bin (metaBody t.BPM).length ++ metaBody t.BPM

/-- Binary encoding of the track as a complete midi file: header chunk,
metadata chunk, note chunk. -/
def Track.MarshalBinary (t : Track) (ords : List (List ℕ × List ℕ)) : List ℕ :=
  encodeHeaderChunk ++ t.encodeMetaChunk ++ t.encodeHits ords

/-- Concatenated image of a list under a list-valued function (used to
state the event-stream characterizations). -/
def catList (f : α → List β) : List α → List β
  | [] => []
  | a :: l => f a ++ catList f l

/-- Event stream the spec ascribes to one hit: one note-on per note
(delta 0, status `0x99`, note, the hit's velocity), then one note-off
per note (first with the duration as VLQ delta, the rest with delta 0,
each status `0x89` with fixed velocity 64).  Stated from the spec's
words, to be compared with `Hit.encode`. -/
def specHitEvents (h : Hit) (ord₁ ord₂ : List ℕ) : List ℕ :=
  catList (fun n => [0, 0x99, n, h.V]) ord₁ ++
    match ord₂ with
    | [] => []
    | n :: rest =>
        (uvarint h.T ++ [0x89, n, 64]) ++ catList (fun m => [0] ++ [0x89, m, 64]) rest

/-- Big-endian value of a 3-byte payload. -/
def be3 (v : ℕ) : List ℕ :=
  [v / 2 ^ 16 % 256, v / 2 ^ 8 % 256, v % 256]

/-- Big-endian accumulation of base-128 digits (the arithmetic content
of variable-length-quantity decoding, before continuation bits). -/
def decAcc (l : List ℕ) (acc : ℕ) : ℕ :=
  l.foldl (fun a b => a * 128 + b) acc

/-- Rounded division `round(a / b)` on naturals, half rounding up (used
to state the spec's `round(60,000,000 / bpm)`; no value of interest here
is an exact half, so every tie-breaking convention agrees). -/
def roundDiv (a b : ℕ) : ℕ :=
  (2 * a + b) / (2 * b)

/-! ### Parser-side data model (text file)

The text file's `Hit` has per-note velocities (`map[byte]Velocity`) and
no hit-level velocity, so it is embedded as a separate type `PHit`; the
note map is kept as a key-sorted association list (the canonical
representation of a finite map). -/

/-- A parsed hit: finite map from note to velocity (key-sorted
association list) plus duration in ticks. -/
structure PHit where
  notes : List (ℕ × ℕ)
  T : ℕ
deriving DecidableEq

/-- A parsed track: ordered hits plus tempo. -/
structure PTrack where
  Hits : List PHit
  BPM : ℕ
deriving DecidableEq

/-- Map insertion (Go `notes[note] = v`): overwrite the key if present,
keeping the association list sorted by key. -/
def mapInsert (k v : ℕ) : List (ℕ × ℕ) → List (ℕ × ℕ)
  | [] => [(k, v)]
  | (k', v') :: rest =>
      if k < k' then (k, v) :: (k', v') :: rest
      else if k = k' then (k, v) :: rest
      else (k', v') :: mapInsert k v rest

/-- Failure causes of the parser, mirroring the distinct error messages
of the text file. -/
inductive ErrMsg where
  | graceParens
  | badHit
  | badNoteToken
  | badDrumNumber
  | badVelocity
  | badDuration
  | graceTooLong
  | badWaitDuration
  | noPrecedingNote
  | badDirective
  | unknownDirective
  | badBPMInput
  | badBPMRange
  | unrecognized
deriving DecidableEq

/-- A parse error as reported to the user: the numeral printed in the
`token #%v` position (exactly the value the code formats, without any
adjustment) and the cause. -/
structure PErr where
  idx : ℕ
  msg : ErrMsg
deriving DecidableEq

/-- Whitespace class of the tokenizer's `\s` (space, tab, newline, form
feed, carriage return). -/
def isSpaceGo (c : Char) : Bool :=
  c = ' ' || c = '\t' || c = '\n' || c = Char.ofNat 12 || c = '\r'

/-- Character class `[0-9A-Z]` of an instrument identifier. -/
def isNoteChar (c : Char) : Bool :=
  c.isDigit || ('A' ≤ c && c ≤ 'Z')

/-- Characters that may occur in the notes section of a hit token
(instrument identifiers, velocity suffixes, commas). -/
def isG1Char (c : Char) : Bool :=
  isNoteChar c || c = '+' || c = '-' || c = ','

/-- Comment removal (`#[^\n]*` replaced by nothing): drop from each `#`
up to, but not including, the next newline.  The flag records whether we
are inside a comment. -/
def stripComments : Bool → List Char → List Char
  | _, [] => []
  | false, c :: rest => if c = '#' then stripComments true rest else c :: stripComments false rest
  | true, c :: rest =>
      if c = '\n' then '\n' :: stripComments false rest else stripComments true rest

/-- Split on runs of whitespace, dropping empty pieces (the tokenizer's
regexp split followed by the empty-string filter).  The second argument
accumulates the current token in reverse. -/
def splitTokens : List Char → List Char → List (List Char)
  | [], cur => if cur = [] then [] else [cur.reverse]
  | c :: rest, cur =>
      if isSpaceGo c then
        if cur = [] then splitTokens rest [] else cur.reverse :: splitTokens rest []
      else splitTokens rest (c :: cur)

/-- Tokenize a text: remove comments, split on whitespace, drop empties. -/
def tokenizeChars (cs : List Char) : List (List Char) :=
  splitTokens (stripComments false cs) []

/-- Split on commas (Go `strings.Split(s, ",")`); empty pieces are kept. -/
def splitComma : List Char → List Char → List (List Char)
  | [], cur => [cur.reverse]
  | c :: rest, cur =>
      if c = ',' then cur.reverse :: splitComma rest [] else splitComma rest (c :: cur)

/-- Matcher for the note-spec pattern `^([0-9A-Z]+)(\+*|-*)$`: yields the
identifier and velocity-suffix groups.  The two character classes are
disjoint, so the greedy decomposition of the anchored pattern is the
maximal `[0-9A-Z]` prefix followed by an all-`+` or all-`-` remainder. -/
def noteTokenMatch (cs : List Char) : Option (List Char × List Char) :=
  let base := cs.takeWhile isNoteChar
  let suf := cs.dropWhile isNoteChar
  if base ≠ [] ∧ (suf.all (fun c => c = '+') ∨ suf.all (fun c => c = '-')) then
    some (base, suf)
  else none

/-- Duration-suffix shape `(\.*|~*)>?`: all dots or all tildes, then an
optional trailing `>`. -/
def durSuffixOK (cs : List Char) : Bool :=
  let core := if cs.getLast? = some '>' then cs.dropLast else cs
  core.all (fun c => c = '.') || core.all (fun c => c = '~')

/-- Matcher for the wait-token pattern `^(?:\.*|~*)>?$`. -/
def isWaitToken (cs : List Char) : Bool :=
  durSuffixOK cs

/-- Notes-section shape `[0-9A-Z]+(?:\+*|-*)(?:,[0-9A-Z]+(?:\+*|-*))*`:
every comma-separated piece is a note-spec. -/
def notesSectionOK (cs : List Char) : Bool :=
  (splitComma cs []).all (fun p => (noteTokenMatch p).isSome)

/-- Matcher for the hit-token pattern
`^\(?(notes)((?:\.*|~*)>?)\)?$`: strips one optional leading `(` and one
optional trailing `)`, then splits the rest at the first character
outside the notes classes (the duration classes `.~>` are disjoint from
them, so the anchored match forces this split).  Yields the notes and
duration groups. -/
def hitTokenMatch (cs : List Char) : Option (List Char × List Char) :=
  let cs1 := if cs.head? = some '(' then cs.tail else cs
  let cs2 := if cs1.getLast? = some ')' then cs1.dropLast else cs1
  let g1 := cs2.takeWhile isG1Char
  let g2 := cs2.dropWhile isG1Char
  if notesSectionOK g1 ∧ durSuffixOK g2 then some (g1, g2) else none

/-- Matcher for the directive pattern `^([^:]+):(.*)$`: nonempty name
before the first colon, value after it. -/
def directiveTokenMatch (cs : List Char) : Option (List Char × List Char) :=
  let name := cs.takeWhile (fun c => c ≠ ':')
  let rest := cs.dropWhile (fun c => c ≠ ':')
  match rest with
  | [] => none
  | _ :: val => if name = [] then none else some (name, val)

/-- Token starts and ends with a parenthesis (and is nonempty). -/
def parenthesized (cs : List Char) : Bool :=
  cs ≠ [] && cs.head? = some '(' && cs.getLast? = some ')'

/-- Token has a parenthesis on exactly one side. -/
def halfParenthesized (cs : List Char) : Bool :=
  cs ≠ [] &&
    ((cs.head? = some '(' && cs.getLast? ≠ some ')') ||
      (cs.head? ≠ some '(' && cs.getLast? = some ')'))

/-- Numeric value of a digit string (no validation). -/
def natOfDigits (cs : List Char) : ℕ :=
  cs.foldl (fun a c => a * 10 + (c.toNat - 48)) 0

/-- Whether a string is the canonical decimal numeral of some natural
number: nonempty, all digits, no leading zero (except `0` itself). -/
def isCanonicalNum : List Char → Bool
  | [] => false
  | [c] => c.isDigit
  | c :: rest => c.isDigit && c ≠ '0' && rest.all Char.isDigit

/-- Modelled from the spec: the named-alias instrument table (its
defining file is not under src/).  The spec fixes only that aliases are
names resolved through the lexical table; no claim depends on any alias,
and alias keys are names, not decimal numerals, so the table is
modelled as empty (lookups yield the Go zero value). -/
def ezDrummer (_cs : List Char) : ℕ :=
  0

/-- The instrument table: canonical decimal numerals `1`..`255` map to
themselves, everything else falls to the alias table; a missing key
yields the Go zero value 0. -/
def drumNotes (cs : List Char) : ℕ :=
  if isCanonicalNum cs ∧ 1 ≤ natOfDigits cs ∧ natOfDigits cs ≤ 255 then natOfDigits cs
  else ezDrummer cs

/-- The velocity-suffix table; a missing key yields the Go zero value 0. -/
def velocities (cs : List Char) : ℕ :=
  if cs = [] then F
  else if cs = ['+'] then FF
  else if cs = ['+', '+'] then FFF
  else if cs = ['-'] then MF
  else if cs = ['-', '-'] then MP
  else if cs = ['-', '-', '-'] then P
  else if cs = ['-', '-', '-', '-'] then PP
  else if cs = ['-', '-', '-', '-', '-'] then PPP
  else 0

/-- The base duration-suffix table (before triplet completion); a
missing key yields the Go zero value 0. -/
def durBase (cs : List Char) : ℕ :=
  if cs = [] then 96
  else if cs = ['.'] then 96 / 2
  else if cs = ['.', '.'] then 96 / 4
  else if cs = ['.', '.', '.'] then 96 / 8
  else if cs = ['.', '.', '.', '.'] then 96 / 16
  else if cs = ['.', '.', '.', '.', '.'] then 96 / 32
  else if cs = ['~'] then 96 * 2
  else if cs = ['~', '~'] then 96 * 4
  else 0

/-- The completed duration table: each base suffix, plus each base
suffix followed by `>` mapping to two thirds of the base duration. -/
def durations (cs : List Char) : ℕ :=
  if cs.getLast? = some '>' then durBase cs.dropLast * 2 / 3 else durBase cs

/-- Parse the notes section of a hit token: split on commas, match each
note-spec, resolve instrument and velocity (a zero resolution is a
missing key, hence an error), and insert into the note map. -/
def parseNotes (cs : List Char) : Except ErrMsg (List (ℕ × ℕ)) :=
  (splitComma cs []).foldlM
    (fun notes part =>
      match noteTokenMatch part with
      | none => .error .badNoteToken
      | some (b, suf) =>
          let note := drumNotes b
          let v := velocities suf
          if note = 0 then .error .badDrumNumber
          else if v = 0 then .error .badVelocity
          else .ok (mapInsert note v notes))
    []

/-- Parse a single (paren-stripped) hit token: re-match the hit pattern,
parse the notes, resolve the duration (zero resolution is an error). -/
def parseHit (cs : List Char) : Except ErrMsg PHit :=
  match hitTokenMatch cs with
  | none => .error .badHit
  | some (g1, g2) =>
      match parseNotes g1 with
      | .error e => .error e
      | .ok notes =>
          let d := durations g2
          if d = 0 then .error .badDuration else .ok ⟨notes, d⟩

/-- Parse a base-10 integer as Go `strconv.Atoi` does on the happy path:
optional sign, then one or more digits.  (Go additionally errors on
64-bit overflow; every such input is also rejected by the range check
that follows each use here, so the observable behavior agrees.) -/
def atoi (cs : List Char) : Option ℤ :=
  let digitsVal : List Char → Option ℕ := fun ds =>
    if ds ≠ [] ∧ ds.all Char.isDigit then some (natOfDigits ds) else none
  match cs with
  | '+' :: rest => (digitsVal rest).map (fun n => (n : ℤ))
  | '-' :: rest => (digitsVal rest).map (fun n => -(n : ℤ))
  | _ => (digitsVal cs).map (fun n => (n : ℤ))

/-- The bpm directive: parse the value as a base-10 integer, reject
values outside `[1, 500]`, and on success overwrite the track's tempo. -/
def bpmDirective (t : PTrack) (cs : List Char) : Except ErrMsg PTrack :=
  match atoi cs with
  | none => .error .badBPMInput
  | some bpm =>
      if bpm < 1 ∨ 500 < bpm then .error .badBPMRange
      else .ok ⟨t.Hits, bpm.toNat⟩

/-- Parse a directive token and run it; only the `bpm` handler is
registered. -/
def parseDirective (t : PTrack) (cs : List Char) : Except ErrMsg PTrack :=
  match directiveTokenMatch cs with
  | none => .error .badDirective
  | some (name, val) =>
      if name = ('b' :: 'p' :: 'm' :: []) then bpmDirective t val
      else .error .unknownDirective

/-- Process one token at (0-based) position `i` of the token stream:
the switch of the track parser.  Hit tokens: reject half-parenthesized
tokens, strip grace parentheses, parse the hit, and for a grace note
with a preceding hit require it to be strictly shorter and subtract its
duration from that hit; then append.  Wait tokens: resolve the duration
and add it to the last hit.  Directive tokens: dispatch.  The error
index recorded is the exact numeral the code prints (`i` in the hit and
directive branches, `i + 1` in the wait and unrecognized branches). -/
def processToken (t : PTrack) (i : ℕ) (tok : List Char) : Except PErr PTrack :=
  if (hitTokenMatch tok).isSome then
    if halfParenthesized tok then .error ⟨i, .graceParens⟩
    else
      let grace := parenthesized tok
      let tok' := if grace then tok.tail.dropLast else tok
      match parseHit tok' with
      | .error m => .error ⟨i, m⟩
      | .ok h =>
          if grace then
            match t.Hits.getLast? with
            | some last =>
                if last.T ≤ h.T then .error ⟨i, .graceTooLong⟩
                else .ok ⟨t.Hits.dropLast ++ [⟨last.notes, last.T - h.T⟩, h], t.BPM⟩
            | none => .ok ⟨t.Hits ++ [h], t.BPM⟩
          else .ok ⟨t.Hits ++ [h], t.BPM⟩
  else if isWaitToken tok then
    let d := durations tok
    if d = 0 then .error ⟨i + 1, .badWaitDuration⟩
    else
      match t.Hits.getLast? with
      | none => .error ⟨i + 1, .noPrecedingNote⟩
      | some last => .ok ⟨t.Hits.dropLast ++ [⟨last.notes, last.T + d⟩], t.BPM⟩
  else if (directiveTokenMatch tok).isSome then
    match parseDirective t tok with
    | .error m => .error ⟨i, m⟩
    | .ok t' => .ok t'
  else .error ⟨i + 1, .unrecognized⟩

/-- Process the token stream left to right, stopping at the first error. -/
def parseTokens : PTrack → ℕ → List (List Char) → Except PErr PTrack
  | t, _, [] => .ok t
  | t, i, tok :: rest =>
      match processToken t i tok with
      | .error e => .error e
      | .ok t' => parseTokens t' (i + 1) rest

/-- Parse a whole notation text into a track, starting from the empty
track (no hits, tempo 0). -/
def ParseTrack (s : String) : Except PErr PTrack :=
  parseTokens ⟨[], 0⟩ 0 (tokenizeChars s.data)

/-! ## Lemmas: variable-length quantities -/

/-- Every 7-bit group is below 128. -/
theorem vlqGroupsAux_lt : ∀ (fuel n x : ℕ), x ∈ vlqGroupsAux fuel n → x < 128 := by
  intro fuel
  induction fuel with
  | zero =>
      intro n x hx
      simp only [vlqGroupsAux, List.mem_singleton] at hx
      omega
  | succ fuel ih =>
      intro n x hx
      simp only [vlqGroupsAux] at hx
      by_cases hn : n < 128
      · simp [hn] at hx
        omega
      · simp [hn, List.mem_append] at hx
        rcases hx with hx | hx
        · exact ih _ _ hx
        · omega

/-- The group list is never empty. -/
theorem vlqGroupsAux_ne_nil : ∀ (fuel n : ℕ), vlqGroupsAux fuel n ≠ [] := by
  intro fuel n
  cases fuel with
  | zero => simp [vlqGroupsAux]
  | succ fuel =>
      simp only [vlqGroupsAux]
      by_cases hn : n < 128 <;> simp [hn]

/-- Accumulating the 7-bit groups of `n` big-endian reconstructs `n`. -/
theorem decAcc_vlqGroupsAux :
    ∀ (fuel n acc : ℕ), n ≤ fuel →
      decAcc (vlqGroupsAux fuel n) acc = acc * 128 ^ (vlqGroupsAux fuel n).length + n := by
  intro fuel
  induction fuel with
  | zero =>
      intro n acc hn
      interval_cases n
      simp [vlqGroupsAux, decAcc]
  | succ fuel ih =>
      intro n acc hn
      by_cases h128 : n < 128
      · simp [vlqGroupsAux, h128, decAcc]
      · have hrec : n / 128 ≤ fuel := by
          have := Nat.div_lt_self (by omega : 0 < n) (by omega : 1 < 128)
          omega
        simp only [vlqGroupsAux, h128, if_false, ite_false]
        rw [decAcc, List.foldl_append, ← decAcc, ← decAcc, ih _ acc hrec]
        simp only [decAcc, List.foldl_cons, List.foldl_nil, List.length_append,
          List.length_singleton]
        rw [pow_succ]
        have hdm : 128 * (n / 128) + n % 128 = n := Nat.div_add_mod n 128
        ring_nf
        omega

/-- Decoding undoes the continuation-bit marking, leaving the plain
big-endian accumulation. -/
theorem vlqDecode_markCont :
    ∀ (l : List ℕ) (acc : ℕ), l ≠ [] → (∀ x ∈ l, x < 128) →
      vlqDecode (markCont l) acc = decAcc l acc := by
  intro l
  induction l with
  | nil => intro acc h; exact absurd rfl h
  | cons a l ih =>
      intro acc _ hlt
      cases l with
      | nil =>
          have ha : a < 128 := hlt a (by simp)
          simp [markCont, vlqDecode, decAcc, ha]
      | cons b l' =>
          have ha : ¬(a + 128 < 128) := by omega
          simp only [markCont, vlqDecode, ha, if_false, ite_false]
          have : a + 128 - 128 = a := by omega
          rw [this, ih (acc * 128 + a) (by simp) (fun x hx => hlt x (by simp [hx]))]
          simp [decAcc]

/-- Round-trip of the codec: decoding an encoding returns the value. -/
theorem decodeVLQ_uvarint (n : ℕ) : decodeVLQ (uvarint n) = n := by
  unfold decodeVLQ uvarint vlqGroups
  rw [vlqDecode_markCont _ _ (vlqGroupsAux_ne_nil n n) (fun x hx => vlqGroupsAux_lt n n x hx)]
  rw [decAcc_vlqGroupsAux n n 0 (le_refl n)]
  simp

/-! ## Lemmas: hit and track encoding -/

/-- Appending-fold as a concatenated image. -/
theorem foldl_append_eq {α β : Type} (f : α → List β) :
    ∀ (l : List α) (init : List β),
      l.foldl (fun b a => b ++ f a) init = init ++ catList f l := by
  intro l
  induction l with
  | nil => intro init; simp [catList]
  | cons a l ih => intro init; simp [catList, ih, List.append_assoc]

/-- Pointwise-equal functions give equal concatenated images. -/
theorem catList_congr {α β : Type} {f g : α → List β} :
    ∀ {l : List α}, (∀ a ∈ l, f a = g a) → catList f l = catList g l := by
  intro l
  induction l with
  | nil => intro _; rfl
  | cons a l ih =>
      intro h
      simp only [catList]
      rw [h a (by simp), ih (fun x hx => h x (by simp [hx]))]

/-- The note-off loop after the first iteration: every remaining note
gets a zero delta-time. -/
theorem offStep_foldl_false (t : ℕ) :
    ∀ (ns : List ℕ) (buf : List ℕ),
      (ns.foldl (offStep t) (buf, false)).1 =
        buf ++ catList (fun m => [0] ++ [0x89, m, 64]) ns := by
  intro ns
  induction ns with
  | nil => intro buf; simp [catList]
  | cons n ns ih =>
      intro buf
      have h0 : uvarint 0 = [0] := rfl
      simp only [List.foldl_cons, offStep, if_false, Bool.false_eq_true, ite_false, h0]
      rw [ih, catList]
      simp [List.append_assoc]

/-- The note-off loop in full: the first note-off carries the hit's
duration as its delta-time, the rest carry zero. -/
theorem offStep_foldl_true (t : ℕ) :
    ∀ (ns : List ℕ) (buf : List ℕ),
      (ns.foldl (offStep t) (buf, true)).1 =
        buf ++
          match ns with
          | [] => []
          | n :: rest =>
              (uvarint t ++ [0x89, n, 64]) ++ catList (fun m => [0] ++ [0x89, m, 64]) rest := by
  intro ns buf
  cases ns with
  | nil => simp
  | cons n rest =>
      simp only [List.foldl_cons, offStep, if_true, ite_true]
      rw [offStep_foldl_false]
      simp [List.append_assoc]

/-- A hit's encoding is exactly the event stream the spec describes,
for any note iteration orders. -/
theorem hit_encode_eq (h : Hit) (o₁ o₂ : List ℕ) :
    h.encode o₁ o₂ = specHitEvents h o₁ o₂ := by
  unfold Hit.encode specHitEvents
  rw [offStep_foldl_true, foldl_append_eq]
  simp

/-- The note-chunk-body fold as a concatenated image of hit encodings. -/
theorem encodeHitsBody_eq (hits : List Hit) (ords : List (List ℕ × List ℕ)) :
    encodeHitsBody hits ords =
      catList (fun p => p.1.encode p.2.1 p.2.2) (hits.zip ords) ++ [0, 0xFF, 0x2F, 0] := by
  unfold encodeHitsBody
  rw [foldl_append_eq]
  simp

/-! ## Lemmas: iteration orders of small note sets -/

/-- A set with at most one element has at most one enumeration. -/
theorem isEnum_eq_of_card_le_one {s : Finset ℕ} {l l' : List ℕ}
    (hs : s.card ≤ 1) (h : isEnum l s) (h' : isEnum l' s) : l = l' := by
  obtain ⟨nd, hts⟩ := h
  obtain ⟨nd', hts'⟩ := h'
  have hlen : l.length = s.card := by rw [← hts]; exact (List.toFinset_card_of_nodup nd).symm
  have hlen' : l'.length = s.card := by rw [← hts']; exact (List.toFinset_card_of_nodup nd').symm
  cases l with
  | nil =>
      have h0 : s.card = 0 := by simpa using hlen.symm
      have : l'.length = 0 := by omega
      rw [List.length_eq_zero] at this
      rw [this]
  | cons a tl =>
      cases tl with
      | nil =>
          have hcard : s.card = 1 := by simpa using hlen.symm
          have : l'.length = 1 := by omega
          obtain ⟨b, rfl⟩ := List.length_eq_one.1 this
          have : ({a} : Finset ℕ) = {b} := by
            calc ({a} : Finset ℕ) = [a].toFinset := by simp
            _ = s := hts
            _ = [b].toFinset := hts'.symm
            _ = {b} := by simp
          rw [Finset.singleton_inj.1 this]
      | cons b tl' =>
          exfalso
          simp only [List.length_cons] at hlen
          omega

/-- When every hit has at most one note, the admissible order list is
unique. -/
theorem validOrds_eq_of_card_le_one :
    ∀ (hits : List Hit) (o₁ o₂ : List (List ℕ × List ℕ)),
      (∀ h ∈ hits, h.Notes.card ≤ 1) → validOrds hits o₁ → validOrds hits o₂ → o₁ = o₂ := by
  intro hits
  induction hits with
  | nil =>
      intro o₁ o₂ _ h1 h2
      obtain ⟨hl1, _⟩ := h1
      obtain ⟨hl2, _⟩ := h2
      simp only [List.length_nil] at hl1 hl2
      rw [List.length_eq_zero] at hl1 hl2
      rw [hl1, hl2]
  | cons h hs ih =>
      intro o₁ o₂ hcard h1 h2
      obtain ⟨hl1, hm1⟩ := h1
      obtain ⟨hl2, hm2⟩ := h2
      match o₁, o₂, hl1, hl2 with
      | p :: ps, q :: qs, hl1, hl2 =>
          have hp := hm1 (h, p) (by simp [List.zip_cons_cons])
          have hq := hm2 (h, q) (by simp [List.zip_cons_cons])
          have hchead : h.Notes.card ≤ 1 := hcard h (by simp)
          have h1' : p.1 = q.1 := isEnum_eq_of_card_le_one hchead hp.1 hq.1
          have h2' : p.2 = q.2 := isEnum_eq_of_card_le_one hchead hp.2 hq.2
          have hps : ps = qs := by
            apply ih ps qs (fun x hx => hcard x (by simp [hx]))
            · exact ⟨by simpa using hl1,
                fun x hx => hm1 x (by simp [List.zip_cons_cons, hx])⟩
            · exact ⟨by simpa using hl2,
                fun x hx => hm2 x (by simp [List.zip_cons_cons, hx])⟩
          rw [show p = q from Prod.ext h1' h2', hps]

/-! ## Claims -/

/-- C2: for every unsigned integer n in [0, 2^28-1], decoding the
variable-length-quantity encoding of n returns n; the encoding of 127 is
the single byte 0x7F and the encoding of 128 is the two bytes 0x81 0x00
(7 value bits per byte, most-significant group first, high bit set on
every byte except the last). -/
theorem c2_vlq_roundtrip :
    (∀ n : ℕ, n < 2 ^ 28 → decodeVLQ (uvarint n) = n) ∧
      uvarint 127 = [0x7F] ∧ uvarint 128 = [0x81, 0x00] :=
  ⟨fun n _ => decodeVLQ_uvarint n, rfl, rfl⟩

/-- Witness for C2 at n = 5000. -/
theorem c2_witness : 5000 < 2 ^ 28 ∧ decodeVLQ (uvarint 5000) = 5000 :=
  ⟨by decide, c2_vlq_roundtrip.1 5000 (by decide)⟩

/-- C1: for every Track, the note chunk body contains, for every hit in
sequence order, one note-on event per note in the hit (delta-time zero,
status 0x99, instrument code, velocity byte), followed by one note-off
event per note (status 0x89) where the first note-off carries the hit's
duration as a variable-length-quantity delta-time and every subsequent
note-off carries delta-time zero, every note-off using the fixed
velocity 64; after all hits a zero-delta end-of-track meta event
(0x00 0xFF 0x2F 0x00) is appended.  The per-hit event stream is spelled
out by `specHitEvents`. -/
theorem c1_note_chunk_body (t : Track) (ords : List (List ℕ × List ℕ))
    (hv : validOrds t.Hits ords) :
    encodeHitsBody t.Hits ords =
      catList (fun p => specHitEvents p.1 p.2.1 p.2.2) (t.Hits.zip ords) ++
        [0x00, 0xFF, 0x2F, 0x00] := by
  obtain ⟨-, -⟩ := hv
  rw [encodeHitsBody_eq]
  rw [catList_congr (fun p _ => hit_encode_eq p.1 p.2.1 p.2.2)]

/-- Witness for C1: a one-hit track (note 36, velocity 96, duration 96);
the delta-time 96 appears as the single byte 0x60. -/
theorem c1_witness :
    validOrds (Track.mk [Hit.mk {36} 96 96] 120).Hits [([36], [36])] ∧
      encodeHitsBody (Track.mk [Hit.mk {36} 96 96] 120).Hits [([36], [36])] =
        [0x00, 0x99, 36, 96, 0x60, 0x89, 36, 64, 0x00, 0xFF, 0x2F, 0x00] :=
  ⟨by decide, by
    rw [c1_note_chunk_body (Track.mk [Hit.mk {36} 96 96] 120) [([36], [36])] (by decide)]
    decide⟩

set_option maxRecDepth 100000 in
/-- C8, counterexample: encoding is not a function of the Track value
alone.  A hit with two notes admits two map iteration orders, both
enumerations of the note set, and the encoder produces different byte
sequences for them, although the Track (with nonzero BPM) is the same. -/
theorem c8_counterexample :
    (Track.mk [Hit.mk {36, 38} 96 96] 120).BPM ≠ 0 ∧
      validOrds (Track.mk [Hit.mk {36, 38} 96 96] 120).Hits [([36, 38], [36, 38])] ∧
      validOrds (Track.mk [Hit.mk {36, 38} 96 96] 120).Hits [([38, 36], [38, 36])] ∧
      (Track.mk [Hit.mk {36, 38} 96 96] 120).MarshalBinary [([36, 38], [36, 38])] ≠
        (Track.mk [Hit.mk {36, 38} 96 96] 120).MarshalBinary [([38, 36], [38, 36])] :=
  ⟨by decide, by decide, by decide, by decide⟩

/-- C8, amended: encoding is a deterministic pure function of the Track
value together with the per-hit note iteration orders; in particular,
for a track in which every hit strikes at most one note, any two
evaluations (any two admissible order choices) produce identical byte
sequences. -/
theorem c8_deterministic (t : Track) (o₁ o₂ : List (List ℕ × List ℕ))
    (_hbpm : t.BPM ≠ 0) (h₁ : validOrds t.Hits o₁) (h₂ : validOrds t.Hits o₂)
    (hcard : ∀ h ∈ t.Hits, h.Notes.card ≤ 1) :
    t.MarshalBinary o₁ = t.MarshalBinary o₂ := by
  rw [validOrds_eq_of_card_le_one t.Hits o₁ o₂ hcard h₁ h₂]

set_option maxRecDepth 100000 in
/-- Witness for C8 at a concrete one-note track. -/
theorem c8_witness :
    validOrds (Track.mk [Hit.mk {36} 96 96] 120).Hits [([36], [36])] ∧
      (Track.mk [Hit.mk {36} 96 96] 120).MarshalBinary [([36], [36])] =
        (Track.mk [Hit.mk {36} 96 96] 120).MarshalBinary [([36], [36])] :=
  ⟨by decide,
    c8_deterministic (Track.mk [Hit.mk {36} 96 96] 120) [([36], [36])] [([36], [36])]
      (by decide) (by decide) (by decide) (by decide)⟩

set_option maxRecDepth 1000000 in
set_option maxHeartbeats 8000000 in
/-- The tempo payload over the whole bpm range the parser admits: the
low three bytes of the truncated (floored) quotient, not the rounded
one.  Established by exhaustive kernel evaluation of the binary64
model. -/
theorem uspbF_payload :
    ∀ b : ℕ, b < 501 → 1 ≤ b → (bin (uspbF b)).drop 1 = be3 (60000000 / b % 2 ^ 24) := by
  decide

set_option maxRecDepth 100000 in
/-- C3, counterexample: at bpm 7 the tempo payload is the truncated
quotient 8571428, not the claimed rounded quotient
round(60,000,000 / 7) = 8571429. -/
theorem c3_counterexample :
    (bin (uspbF 7)).drop 1 ≠ be3 (roundDiv 60000000 7) ∧
      uspbF 7 = 8571428 ∧ roundDiv 60000000 7 = 8571429 ∧
      metaBody 7 ≠
        [0, 0xFF, 0x58, 4, 4, 2, 24, 8] ++
          ([0, 0xFF, 0x51, 3] ++ be3 (roundDiv 60000000 7)) ++ [0, 0xFF, 0x2F, 0] :=
  ⟨by decide, by decide, by decide, by decide⟩

set_option maxRecDepth 100000 in
/-- C3, amended: for every Track with BPM b in [1, 500], the tempo meta
event's 3-byte payload equals the low 24 bits of ⌊60,000,000 / b⌋ (the
float64 computation truncates; for b ≥ 4 the quotient fits in 3 bytes,
for b ≤ 3 only its low bytes survive); in particular for b = 120 the
payload equals 500000. -/
theorem c3_tempo_payload :
    (∀ t : Track, 1 ≤ t.BPM → t.BPM ≤ 500 →
        t.encodeMetaChunk =
          tagMTrk ++ bin 19 ++
            ([0, 0xFF, 0x58, 4, 4, 2, 24, 8] ++
              ([0, 0xFF, 0x51, 3] ++ be3 (60000000 / t.BPM % 2 ^ 24)) ++
              [0, 0xFF, 0x2F, 0])) ∧
      (Track.mk [] 120).encodeMetaChunk =
        tagMTrk ++ bin 19 ++
          ([0, 0xFF, 0x58, 4, 4, 2, 24, 8] ++ ([0, 0xFF, 0x51, 3] ++ be3 500000) ++
            [0, 0xFF, 0x2F, 0]) := by
  constructor
  · intro t h1 h500
    have hp : (bin (uspbF t.BPM)).drop 1 = be3 (60000000 / t.BPM % 2 ^ 24) :=
      uspbF_payload t.BPM (by omega) h1
    have hbody :
        metaBody t.BPM =
          [0, 0xFF, 0x58, 4, 4, 2, 24, 8] ++
            ([0, 0xFF, 0x51, 3] ++ be3 (60000000 / t.BPM % 2 ^ 24)) ++ [0, 0xFF, 0x2F, 0] := by
      unfold metaBody
      rw [hp]
    have hlen : (metaBody t.BPM).length = 19 := by
      rw [hbody]
      simp [be3]
    unfold Track.encodeMetaChunk
    rw [hlen, hbody]
  · decide

set_option maxRecDepth 100000 in
/-- Witness for C3 at bpm 250 (payload 240000). -/
theorem c3_witness :
    1 ≤ (Track.mk [] 250).BPM ∧ (Track.mk [] 250).BPM ≤ 500 ∧
      (Track.mk [] 250).encodeMetaChunk =
        tagMTrk ++ bin 19 ++
          ([0, 0xFF, 0x58, 4, 4, 2, 24, 8] ++
            ([0, 0xFF, 0x51, 3] ++ be3 (60000000 / (Track.mk [] 250).BPM % 2 ^ 24)) ++
            [0, 0xFF, 0x2F, 0]) :=
  ⟨by decide, by decide, c3_tempo_payload.1 (Track.mk [] 250) (by decide) (by decide)⟩

/-! ## Lemmas: token classification -/

/-- A token with parentheses on both sides is not half-parenthesized. -/
theorem halfParenthesized_eq_false {cs : List Char} (h : parenthesized cs = true) :
    halfParenthesized cs = false := by
  simp only [parenthesized, Bool.and_eq_true, decide_eq_true_eq] at h
  simp [halfParenthesized, h.1.2, h.2]

/-- A well-shaped duration suffix consists of dots, tildes and `>` only. -/
theorem durSuffixOK_mem {cs : List Char} (h : durSuffixOK cs = true) :
    ∀ c ∈ cs, c = '.' ∨ c = '~' ∨ c = '>' := by
  intro c hc
  unfold durSuffixOK at h
  by_cases hl : cs.getLast? = some '>'
  · rw [if_pos hl] at h
    have hsplit : cs.dropLast ++ ['>'] = cs :=
      List.dropLast_append_getLast? '>' (Option.mem_def.2 hl)
    rw [← hsplit] at hc
    rcases List.mem_append.1 hc with h1 | h2
    · rw [Bool.or_eq_true] at h
      rcases h with hall | hall
      · simp only [List.all_eq_true, decide_eq_true_eq] at hall
        exact Or.inl (hall c h1)
      · simp only [List.all_eq_true, decide_eq_true_eq] at hall
        exact Or.inr (Or.inl (hall c h1))
    · simp only [List.mem_singleton] at h2
      exact Or.inr (Or.inr h2)
  · rw [if_neg hl] at h
    rw [Bool.or_eq_true] at h
    rcases h with hall | hall
    · simp only [List.all_eq_true, decide_eq_true_eq] at hall
      exact Or.inl (hall c hc)
    · simp only [List.all_eq_true, decide_eq_true_eq] at hall
      exact Or.inr (Or.inl (hall c hc))

/-- Duration characters are outside the notes-section character class. -/
theorem isG1Char_eq_false_of_dur {c : Char} (h : c = '.' ∨ c = '~' ∨ c = '>') :
    isG1Char c = false := by
  rcases h with rfl | rfl | rfl <;> decide

/-- A wait-shaped token never matches the hit-token pattern (its
characters all lie outside the notes classes). -/
theorem hitTokenMatch_of_wait {cs : List Char} (h : isWaitToken cs = true) :
    hitTokenMatch cs = none := by
  have hmem := durSuffixOK_mem (h : durSuffixOK cs = true)
  have hhead : ¬cs.head? = some '(' := by
    cases cs with
    | nil => simp
    | cons c l =>
        simp only [List.head?_cons]
        intro heq
        have hcl : c = '(' := by injection heq
        rcases hmem c (by simp) with h1 | h1 | h1 <;> rw [h1] at hcl <;> exact absurd hcl (by decide)
  have hlast : ¬cs.getLast? = some ')' := by
    intro heq
    have hm : ')' ∈ cs := List.mem_of_getLast?_eq_some heq
    rcases hmem ')' hm with h1 | h1 | h1 <;> exact absurd h1 (by decide)
  have hg1 : cs.takeWhile isG1Char = [] := by
    cases cs with
    | nil => rfl
    | cons c l =>
        have : isG1Char c = false := isG1Char_eq_false_of_dur (hmem c (by simp))
        simp [List.takeWhile_cons, this]
  unfold hitTokenMatch
  simp only [if_neg hhead, if_neg hlast, hg1]
  rw [if_neg]
  rintro ⟨h1, -⟩
  exact absurd h1 (by decide)

/-! ## Claims about the parser -/

/-- C4: for every value string v, processing the directive token
`bpm:`v sets the track's BPM to the denoted integer when it lies in
[1, 500], and fails with an error (leaving no modified track) when v is
non-numeric or denotes an integer ≤ 0 or > 500. -/
theorem c4_bpm_directive (t : PTrack) (v : List Char) :
    (∀ n : ℤ, atoi v = some n → 1 ≤ n → n ≤ 500 →
        parseDirective t ('b' :: 'p' :: 'm' :: ':' :: v) = .ok ⟨t.Hits, n.toNat⟩) ∧
      ((atoi v = none ∨ ∃ n : ℤ, atoi v = some n ∧ (n < 1 ∨ 500 < n)) →
        ∃ e : ErrMsg, parseDirective t ('b' :: 'p' :: 'm' :: ':' :: v) = .error e) := by
  have hred : parseDirective t ('b' :: 'p' :: 'm' :: ':' :: v) = bpmDirective t v := rfl
  constructor
  · intro n hn h1 h500
    rw [hred]
    unfold bpmDirective
    rw [hn]
    show (if n < 1 ∨ 500 < n then (.error .badBPMRange : Except ErrMsg PTrack)
        else .ok ⟨t.Hits, n.toNat⟩) = .ok ⟨t.Hits, n.toNat⟩
    rw [if_neg (by omega)]
  · intro hbad
    rw [hred]
    unfold bpmDirective
    rcases hbad with hnone | ⟨n, hn, hout⟩
    · rw [hnone]
      exact ⟨.badBPMInput, rfl⟩
    · rw [hn]
      refine ⟨.badBPMRange, ?_⟩
      show (if n < 1 ∨ 500 < n then (.error .badBPMRange : Except ErrMsg PTrack)
          else .ok ⟨t.Hits, n.toNat⟩) = .error .badBPMRange
      rw [if_pos (by omega)]

/-- Witness for C4 at value 120. -/
theorem c4_witness :
    atoi ('1' :: '2' :: '0' :: []) = some 120 ∧
      parseDirective (PTrack.mk [] 0) ('b' :: 'p' :: 'm' :: ':' :: '1' :: '2' :: '0' :: []) =
        .ok ⟨[], 120⟩ :=
  ⟨rfl,
    (c4_bpm_directive (PTrack.mk [] 0) ('1' :: '2' :: '0' :: [])).1 120 rfl
      (by decide) (by decide)⟩

/-- C5: a parenthesized (grace-note) hit token following at least one
parsed hit shortens the preceding hit by the grace note's duration when
that duration is strictly smaller, appending the grace note; when the
grace note's duration is greater than or equal to the preceding hit's
current duration, parsing fails.  In particular parsing `36 (38.)`
leaves the first hit with 96 − 48 = 48 ticks, and `36 (38)` fails. -/
theorem c5_grace_note :
    (∀ (t : PTrack) (i : ℕ) (tok : List Char) (h : PHit) (last : PHit),
        parenthesized tok = true →
        (hitTokenMatch tok).isSome = true →
        parseHit tok.tail.dropLast = .ok h →
        t.Hits.getLast? = some last →
        (h.T < last.T →
            processToken t i tok =
              .ok ⟨t.Hits.dropLast ++ [⟨last.notes, last.T - h.T⟩, h], t.BPM⟩) ∧
          (last.T ≤ h.T → processToken t i tok = .error ⟨i, .graceTooLong⟩)) ∧
      ParseTrack ("36 (38.)") = .ok ⟨[⟨[(36, 96)], 48⟩, ⟨[(38, 96)], 48⟩], 0⟩ ∧
      ParseTrack ("36 (38)") = .error ⟨1, .graceTooLong⟩ := by
  refine ⟨?_, rfl, rfl⟩
  intro t i tok h last hpar hmatch hph hlast
  have hhalf := halfParenthesized_eq_false hpar
  constructor
  · intro hlt
    simp only [processToken, hmatch, if_true, hhalf, Bool.false_eq_true, if_false, hpar,
      ite_true, ite_false, hph, hlast]
    rw [if_neg (by omega)]
  · intro hge
    simp only [processToken, hmatch, if_true, hhalf, Bool.false_eq_true, if_false, hpar,
      ite_true, ite_false, hph, hlast]
    rw [if_pos hge]

/-- Witness for C5: the grace branch applied after a 96-tick hit. -/
theorem c5_witness :
    processToken (PTrack.mk [⟨[(36, 96)], 96⟩] 0) 1 ('(' :: '3' :: '8' :: '.' :: ')' :: []) =
      .ok ⟨[⟨[(36, 96)], 48⟩, ⟨[(38, 96)], 48⟩], 0⟩ :=
  ((c5_grace_note.1 (PTrack.mk [⟨[(36, 96)], 96⟩] 0) 1 ('(' :: '3' :: '8' :: '.' :: ')' :: [])
      ⟨[(38, 96)], 48⟩ ⟨[(36, 96)], 96⟩ rfl rfl rfl rfl).1 (by decide))

/-- C6: a wait token whose suffix resolves adds the resolved duration to
the last hit's duration when a hit precedes it; with no preceding hit it
fails, as does a wait token whose suffix does not resolve.  In
particular parsing `36 .` yields one hit of 96 + 48 = 144 ticks. -/
theorem c6_wait_token :
    (∀ (t : PTrack) (i : ℕ) (tok : List Char),
        isWaitToken tok = true →
        (durations tok ≠ 0 →
            (∀ last, t.Hits.getLast? = some last →
                processToken t i tok =
                  .ok ⟨t.Hits.dropLast ++ [⟨last.notes, last.T + durations tok⟩], t.BPM⟩) ∧
              (t.Hits = [] → processToken t i tok = .error ⟨i + 1, .noPrecedingNote⟩)) ∧
          (durations tok = 0 → processToken t i tok = .error ⟨i + 1, .badWaitDuration⟩)) ∧
      ParseTrack ("36 .") = .ok ⟨[⟨[(36, 96)], 144⟩], 0⟩ := by
  refine ⟨?_, rfl⟩
  intro t i tok hw
  have hhit := hitTokenMatch_of_wait hw
  constructor
  · intro hd
    constructor
    · intro last hlast
      simp only [processToken, hhit, Option.isSome_none, Bool.false_eq_true, if_false,
        ite_false, hw, if_true, ite_true, hlast]
      rw [if_neg hd]
    · intro hnil
      simp only [processToken, hhit, Option.isSome_none, Bool.false_eq_true, if_false,
        ite_false, hw, if_true, ite_true, hnil, List.getLast?_nil]
      rw [if_neg hd]
  · intro hd
    simp only [processToken, hhit, Option.isSome_none, Bool.false_eq_true, if_false,
      ite_false, hw, if_true, ite_true]
    rw [if_pos hd]

/-- Witness for C6: a dot wait token after a 96-tick hit. -/
theorem c6_witness :
    processToken (PTrack.mk [⟨[(36, 96)], 96⟩] 0) 0 ('.' :: []) =
      .ok ⟨[⟨[(36, 96)], 144⟩], 0⟩ :=
  ((c6_wait_token.1 (PTrack.mk [⟨[(36, 96)], 96⟩] 0) 0 ('.' :: []) rfl).1
      (by decide)).1 ⟨[(36, 96)], 96⟩ rfl

/-- C7: parsing the single token `36` yields exactly one hit with one
note — instrument 36, velocity 96 (empty velocity suffix defaults to
forte) — and duration 96 ticks (empty duration suffix defaults to a
quarter note); `36+` yields velocity 112 and `36--` yields velocity 64. -/
theorem c7_defaults :
    ParseTrack ("36") = .ok ⟨[⟨[(36, 96)], 96⟩], 0⟩ ∧
      ParseTrack ("36+") = .ok ⟨[⟨[(36, 112)], 96⟩], 0⟩ ∧
      ParseTrack ("36--") = .ok ⟨[⟨[(36, 64)], 96⟩], 0⟩ :=
  ⟨rfl, rfl, rfl⟩

/-- C9: the code does not report a 1-based token index for every failure
cause.  For the input `(36` the offending token is the first one
(1-based index 1), but the half-parenthesis error prints the 0-based
loop index 0; the wait branch, by contrast, prints the 1-based index 1
for the input `~`.  The indexing is internally inconsistent (`i` in the
hit and directive branches, `i + 1` in the wait and unrecognized
branches). -/
theorem c9_error_index :
    ParseTrack ("(36") = .error ⟨0, .graceParens⟩ ∧
      ParseTrack ("~") = .error ⟨1, .noPrecedingNote⟩ :=
  ⟨rfl, rfl⟩

/-- C10: a parenthesized (grace-note) hit token with no preceding hit is
accepted: the hit is appended as an ordinary hit keeping its full
resolved duration, with no subtraction. -/
theorem c10_leading_grace (t : PTrack) (i : ℕ) (tok : List Char) (h : PHit)
    (hnil : t.Hits = [])
    (hpar : parenthesized tok = true)
    (hmatch : (hitTokenMatch tok).isSome = true)
    (hph : parseHit tok.tail.dropLast = .ok h) :
    processToken t i tok = .ok ⟨[h], t.BPM⟩ := by
  have hhalf := halfParenthesized_eq_false hpar
  simp only [processToken, hmatch, if_true, hhalf, Bool.false_eq_true, if_false, hpar,
    ite_true, ite_false, hph, hnil, List.getLast?_nil, List.nil_append]

/-- Witness for C10: the grace token `(38.)` as the very first token. -/
theorem c10_witness :
    processToken (PTrack.mk [] 0) 0 ('(' :: '3' :: '8' :: '.' :: ')' :: []) =
      .ok ⟨[⟨[(38, 96)], 48⟩], 0⟩ :=
  c10_leading_grace (PTrack.mk [] 0) 0 ('(' :: '3' :: '8' :: '.' :: ')' :: [])
    ⟨[(38, 96)], 48⟩ rfl rfl rfl rfl

end Beatnik
